import Mathlib

/-!
Verification of the dependency-report generator
(`src/Other/analyze_dependencies.py`).

The script builds a reverse-dependency map over the explicitly installed
packages, classifies each dependency with an ordered keyword rule table
(`categorize`), and writes a categorized, sorted report.  Package names are
Python strings; we embed them as `List Char`.  The external package-query
collaborator (`pactree`) is embedded as a function
`PkgName → Option (List PkgName)`, where `none` stands for a failed lookup
(timeout or non-zero exit status) and `some lines` for the depender lines
returned after the header line has been discarded.
-/

set_option maxRecDepth 8000

/-- A package name: a Python `str`, embedded as its list of characters. -/
abbrev PkgName := List Char

/-- Python `str.lower()` (the script only ever lowercases ASCII package
names, embedded with `Char.toLower`). -/
def lowerName (s : PkgName) : PkgName := s.map Char.toLower

/-- Python `str.strip()`: remove leading and trailing whitespace. -/
def stripName (s : PkgName) : PkgName :=
  ((s.dropWhile Char.isWhitespace).reverse.dropWhile Char.isWhitespace).reverse

/-- Python substring test `needle in hay`. -/
def containsSub : PkgName → PkgName → Bool
  | [], needle => needle.isEmpty
  | a :: t, needle => needle.isPrefixOf (a :: t) || containsSub t needle

/-- The categories of the rule table in `categorize`. -/
inductive Category where
  | PYTHON
  | PERL
  | DEVELOPMENT_TOOLS
  | BLUETOOTH
  | AUDIO
  | STORAGE
  | DESKTOP
  | KDE
  | GUI_LIBS
  | SECURITY
  | JAVA
  | VR
  | FILESYSTEM
  | SYSTEM
  | SYSTEM_INFO
  | ARCHIVE
  | OTHER
deriving DecidableEq

def kwPython : PkgName := "python".data

def kwPythonDash : PkgName := "python-".data

def kwPerl : PkgName := "perl".data

def kwGit : PkgName := "git".data

def kwOpenssh : PkgName := "openssh".data

def kwRsync : PkgName := "rsync".data

def kwSudo : PkgName := "sudo".data

def kwWhich : PkgName := "which".data

def kwDiffutils : PkgName := "diffutils".data

def kwBluez : PkgName := "bluez".data

def kwPipewire : PkgName := "pipewire".data

def kwAlsa : PkgName := "alsa".data

def kwDeviceMapper : PkgName := "device-mapper".data

def kwCryptsetup : PkgName := "cryptsetup".data

def kwXdg : PkgName := "xdg".data

def kwDesktop : PkgName := "desktop".data

def kwKde : PkgName := "kde".data

def kwKio : PkgName := "kio".data

def kwPlasma : PkgName := "plasma".data

def kwGtk : PkgName := "gtk".data

def kwQt : PkgName := "qt".data

def kwGnomeKeyring : PkgName := "gnome-keyring".data

def kwJdk : PkgName := "jdk".data

def kwJava : PkgName := "java".data

def kwOpenxr : PkgName := "openxr".data

def kwE2fsprogs : PkgName := "e2fsprogs".data

def kwDosfstools : PkgName := "dosfstools".data

def kwMtools : PkgName := "mtools".data

def kwSystemd : PkgName := "systemd".data

def kwTexinfo : PkgName := "texinfo".data

def kwHwinfo : PkgName := "hwinfo".data

def kwUnzip : PkgName := "unzip".data

/-- The exact-name list of the `DEVELOPMENT_TOOLS` rule
(`pkg in ['git', 'openssh', 'rsync', 'sudo', 'which', 'diffutils']`). -/
def devToolsNames : List PkgName :=
  [kwGit, kwOpenssh, kwRsync, kwSudo, kwWhich, kwDiffutils]

/-- The script's `categorize`: ordered rule table, first match wins.
Each keyword test is a substring test on `pkg.lower()`; the first rule also
tests `pkg.startswith('python-')` on the original name, and the
`DEVELOPMENT_TOOLS` rule is an exact (case-sensitive) membership test. -/
def categorize (pkg : PkgName) : Category :=
  if containsSub (lowerName pkg) kwPython || kwPythonDash.isPrefixOf pkg then .PYTHON
  else if containsSub (lowerName pkg) kwPerl then .PERL
  else if pkg ∈ devToolsNames then .DEVELOPMENT_TOOLS
  else if containsSub (lowerName pkg) kwBluez then .BLUETOOTH
  else if containsSub (lowerName pkg) kwPipewire || containsSub (lowerName pkg) kwAlsa then Category.AUDIO
  else if containsSub (lowerName pkg) kwDeviceMapper || containsSub (lowerName pkg) kwCryptsetup then .STORAGE
  else if containsSub (lowerName pkg) kwXdg || containsSub (lowerName pkg) kwDesktop then .DESKTOP
  else if containsSub (lowerName pkg) kwKde || containsSub (lowerName pkg) kwKio || containsSub (lowerName pkg) kwPlasma then .KDE
  else if containsSub (lowerName pkg) kwGtk || containsSub (lowerName pkg) kwQt then .GUI_LIBS
  else if containsSub (lowerName pkg) kwGnomeKeyring then .SECURITY
  else if containsSub (lowerName pkg) kwJdk || containsSub (lowerName pkg) kwJava then .JAVA
  else if containsSub (lowerName pkg) kwOpenxr then .VR
  else if containsSub (lowerName pkg) kwE2fsprogs || containsSub (lowerName pkg) kwDosfstools || containsSub (lowerName pkg) kwMtools then .FILESYSTEM
  else if containsSub (lowerName pkg) kwSystemd then .SYSTEM
  else if containsSub (lowerName pkg) kwTexinfo || containsSub (lowerName pkg) kwHwinfo then .SYSTEM_INFO
  else if containsSub (lowerName pkg) kwUnzip then .ARCHIVE
  else .OTHER

/-- A reverse-dependency map: an association list from a dependency to the
list of packages recorded as depending on it (a Python dict, keys unique). -/
abbrev DepMap := List (PkgName × List PkgName)

/-- The per-package processing of the raw `pactree` depender lines
(`depender = depender.strip(); if depender and depender != pkg: append`). -/
def processDeps (pkg : PkgName) (raws : List PkgName) : List PkgName :=
  (raws.map stripName).filter (fun d => !d.isEmpty && decide (d ≠ pkg))

/-- `buildDependencyMap`: the loop that fills `dependency_map`.
`ep` is the explicit-package set (iterated as a list); `raw pkg` is the
collaborator's answer for `pkg` (`none` = timeout / non-zero exit, `some` =
depender lines after the header skip).  Empty names are skipped before any
lookup; a package whose processed depender list is empty gets no entry. -/
def buildDependencyMap (ep : List PkgName) (raw : PkgName → Option (List PkgName)) : DepMap :=
  ep.filterMap (fun pkg =>
    if pkg.isEmpty then none
    else
      (raw pkg).bind (fun raws =>
        if (processDeps pkg raws).isEmpty then none
        else some (pkg, processDeps pkg raws)))

/-- `[d for d in dependers if d in explicit_packages]`. -/
def explicitDependers (ep : List PkgName) (ds : List PkgName) : List PkgName :=
  ds.filter (fun d => decide (d ∈ ep))

/-- The `categories` grouping loop: each map entry with a non-empty filtered
depender list contributes `(categorize dep, dep, filtered dependers)`. -/
def categoriesMap (dm : DepMap) (ep : List PkgName) : List (Category × PkgName × List PkgName) :=
  dm.filterMap (fun e =>
    if (explicitDependers ep e.2).isEmpty then none
    else some (categorize e.1, e.1, explicitDependers ep e.2))

/-- `categories[cat]`: the dependency → dependers entries of one category. -/
def catDeps (cm : List (Category × PkgName × List PkgName)) (c : Category) : DepMap :=
  (cm.filter (fun t => decide (t.1 = c))).map (fun t => t.2)

/-- Python dict access on an association list with unique keys. -/
def lookupN (k : PkgName) : DepMap → Option (List PkgName)
  | [] => none
  | e :: t => if e.1 = k then some e.2 else lookupN k t

/-- Python string `<=`: lexicographic comparison by code point. -/
def leN : PkgName → PkgName → Bool
  | [], _ => true
  | _ :: _, [] => false
  | a :: as, b :: bs => if a < b then true else if b < a then false else leN as bs

/-- `leN` as a relation, for `List.insertionSort`. -/
def LeN (x y : PkgName) : Prop := leN x y = true

instance : DecidableRel LeN := fun x y => by unfold LeN; infer_instance

/-- Python `sorted` on a list of names. -/
def sortNames (l : List PkgName) : List PkgName := List.insertionSort LeN l

/-- Python `sorted(set(l))`. -/
def dedupSort (l : List PkgName) : List PkgName := sortNames l.dedup

/-- The per-category emission loop: iterate the category's dependencies in
sorted order; for each, deduplicate and sort its dependers, filter them once
more against the explicit set, and skip the dependency if none remain. -/
def emitCat (entries : DepMap) (ep : List PkgName) : DepMap :=
  (sortNames (entries.map Prod.fst)).filterMap (fun dep =>
    (lookupN dep entries).bind (fun ds =>
      if (explicitDependers ep (dedupSort ds)).isEmpty then none
      else some (dep, explicitDependers ep (dedupSort ds))))

/-- The fixed presentation order `cat_order` of the script. -/
def catOrder : List Category :=
  [.PYTHON, .PERL, .DEVELOPMENT_TOOLS, .BLUETOOTH, Category.AUDIO,
   .STORAGE, .DESKTOP, .KDE, .GUI_LIBS, .SECURITY, .JAVA,
   .VR, .FILESYSTEM, .SYSTEM, .SYSTEM_INFO, .ARCHIVE, .OTHER]

/-- The report structure the output loop writes: one section per category of
`cat_order` whose `categories[cat]` is non-empty, holding the emitted
(dependency, dependers) lines in emission order. -/
def buildReport (dm : DepMap) (ep : List PkgName) : List (Category × DepMap) :=
  catOrder.filterMap (fun c =>
    if (catDeps (categoriesMap dm ep) c).isEmpty then none
    else some (c, emitCat (catDeps (categoriesMap dm ep) c) ep))

/-- Modelled from the spec: the single-filter variant of the emission loop
(§9 open question) — dependers are filtered against the explicit set only
when the map is grouped, not again at line-emission time. -/
def emitCatSingleFilter (entries : DepMap) : DepMap :=
  (sortNames (entries.map Prod.fst)).filterMap (fun dep =>
    (lookupN dep entries).bind (fun ds =>
      if (dedupSort ds).isEmpty then none
      else some (dep, dedupSort ds)))

/-- Modelled from the spec: `buildReport` with the explicit filtering applied
only once, for the refinement comparison of the double filtering. -/
def buildReportSingleFilter (dm : DepMap) (ep : List PkgName) : List (Category × DepMap) :=
  catOrder.filterMap (fun c =>
    if (catDeps (categoriesMap dm ep) c).isEmpty then none
    else some (c, emitCatSingleFilter (catDeps (categoriesMap dm ep) c)))

def epEx1 : List PkgName := [("python").data, ("inkscape").data, ("libreoffice-fresh").data]

def rawEx1 : PkgName → Option (List PkgName) := fun p =>
  if p = ("python").data then
    some [("inkscape").data, ("libreoffice-fresh").data, ("some-other-tool").data]
  else some []

def rawEmptyTest : PkgName → Option (List PkgName) := fun _ => some [("x").data]

def rawDupTest : PkgName → Option (List PkgName) :=
  fun _ => some [(" b ").data, ("b").data, ("a").data, ("").data]


/-! ### Order lemmas for the lexicographic comparison -/

theorem leN_trans {x y z : PkgName} (hxy : leN x y = true) (hyz : leN y z = true) :
    leN x z = true := by
  induction x generalizing y z with
  | nil => rfl
  | cons a as ih =>
    cases y with
    | nil => simp [leN] at hxy
    | cons b bs =>
      cases z with
      | nil => simp [leN] at hyz
      | cons c cs =>
        simp only [leN] at hxy hyz ⊢
        rcases lt_trichotomy a b with hab | hab | hab
        · rcases lt_trichotomy b c with hbc | hbc | hbc
          · rw [if_pos (lt_trans hab hbc)]
          · subst hbc; rw [if_pos hab]
          · rw [if_neg (lt_asymm hbc), if_pos hbc] at hyz; exact absurd hyz (by decide)
        · subst hab
          rw [if_neg (lt_irrefl a), if_neg (lt_irrefl a)] at hxy
          rcases lt_trichotomy a c with hac | hac | hac
          · rw [if_pos hac]
          · subst hac
            rw [if_neg (lt_irrefl a), if_neg (lt_irrefl a)] at hyz ⊢
            exact ih hxy hyz
          · rw [if_neg (lt_asymm hac), if_pos hac] at hyz; exact absurd hyz (by decide)
        · rw [if_neg (lt_asymm hab), if_pos hab] at hxy; exact absurd hxy (by decide)

theorem leN_total (x y : PkgName) : leN x y = true ∨ leN y x = true := by
  induction x generalizing y with
  | nil => left; rfl
  | cons a as ih =>
    cases y with
    | nil => right; rfl
    | cons b bs =>
      simp only [leN]
      rcases lt_trichotomy a b with hab | hab | hab
      · left; rw [if_pos hab]
      · subst hab
        rcases ih bs with h | h
        · left; rw [if_neg (lt_irrefl a), if_neg (lt_irrefl a)]; exact h
        · right; rw [if_neg (lt_irrefl a), if_neg (lt_irrefl a)]; exact h
      · right; rw [if_pos hab]

instance : IsTotal PkgName LeN := ⟨leN_total⟩

instance : IsTrans PkgName LeN := ⟨fun _ _ _ => leN_trans⟩

theorem sortNames_perm (l : List PkgName) : List.Perm (sortNames l) l :=
  List.perm_insertionSort LeN l

theorem mem_sortNames {x : PkgName} {l : List PkgName} : x ∈ sortNames l ↔ x ∈ l :=
  (sortNames_perm l).mem_iff

theorem sortNames_sorted (l : List PkgName) : List.Sorted LeN (sortNames l) :=
  List.sorted_insertionSort LeN l

theorem mem_dedupSort {x : PkgName} {l : List PkgName} : x ∈ dedupSort l ↔ x ∈ l := by
  unfold dedupSort
  rw [mem_sortNames, List.mem_dedup]

theorem dedupSort_nodup (l : List PkgName) : (dedupSort l).Nodup :=
  (sortNames_perm l.dedup).nodup_iff.mpr (List.nodup_dedup l)

theorem dedupSort_sorted (l : List PkgName) : List.Sorted LeN (dedupSort l) :=
  sortNames_sorted l.dedup

/-! ### Generic list helpers -/

theorem filterMap_congr_fun {α β : Type} {f g : α → Option β} {l : List α}
    (h : ∀ a ∈ l, f a = g a) : l.filterMap f = l.filterMap g := by
  induction l with
  | nil => rfl
  | cons a t ih =>
    rw [List.filterMap_cons, List.filterMap_cons, h a (List.mem_cons_self a t),
      ih (fun p hp => h p (List.mem_cons_of_mem a hp))]

theorem filterMap_keys_sublist {α β : Type} (f : α → Option (α × β))
    (h : ∀ a y, f a = some y → y.1 = a) (l : List α) :
    ((l.filterMap f).map Prod.fst).Sublist l := by
  induction l with
  | nil => simp
  | cons a t ih =>
    rw [List.filterMap_cons]
    cases hfa : f a with
    | none => exact ih.cons a
    | some y =>
      rw [List.map_cons, h a y hfa]
      exact ih.cons₂ a

theorem lookupN_mem {p : PkgName} {v : List PkgName} {l : DepMap}
    (h : lookupN p l = some v) : (p, v) ∈ l := by
  induction l with
  | nil => cases h
  | cons e t ih =>
    simp only [lookupN] at h
    by_cases he : e.1 = p
    · rw [if_pos he] at h
      cases h
      exact List.mem_cons.mpr (Or.inl (by rw [← he]))
    · rw [if_neg he] at h
      exact List.mem_cons_of_mem e (ih h)

theorem mem_lookupN {p : PkgName} {v : List PkgName} {l : DepMap}
    (hnd : (l.map Prod.fst).Nodup) (h : (p, v) ∈ l) : lookupN p l = some v := by
  induction l with
  | nil => cases h
  | cons e t ih =>
    rw [List.map_cons, List.nodup_cons] at hnd
    obtain ⟨hne, hndt⟩ := hnd
    simp only [lookupN]
    rcases List.mem_cons.mp h with he | ht
    · subst he
      rw [if_pos rfl]
    · have hp : p ∈ t.map Prod.fst := List.mem_map_of_mem Prod.fst ht
      rw [if_neg (show e.1 ≠ p from fun hq => hne (by rw [hq]; exact hp))]
      exact ih hndt ht

theorem lookupN_none_of_keys {p : PkgName} {l : DepMap}
    (h : ∀ e ∈ l, e.1 ≠ p) : lookupN p l = none := by
  induction l with
  | nil => rfl
  | cons e t ih =>
    simp only [lookupN]
    rw [if_neg (h e (List.mem_cons_self e t))]
    exact ih (fun x hx => h x (List.mem_cons_of_mem e hx))

theorem lookupN_some_of_key_mem {dep : PkgName} {l : DepMap}
    (h : dep ∈ l.map Prod.fst) : ∃ v, lookupN dep l = some v ∧ (dep, v) ∈ l := by
  induction l with
  | nil => cases h
  | cons e t ih =>
    simp only [lookupN]
    by_cases he : e.1 = dep
    · exact ⟨e.2, by rw [if_pos he], List.mem_cons.mpr (Or.inl (by rw [← he]))⟩
    · rw [List.map_cons] at h
      rcases List.mem_cons.mp h with hh | ht
      · exact absurd hh.symm he
      · obtain ⟨v, hv, hmem⟩ := ih ht
        exact ⟨v, by rw [if_neg he]; exact hv, List.mem_cons_of_mem e hmem⟩

/-! ### Lemmas about `buildDependencyMap` -/

theorem buildDependencyMap_mem {ep : List PkgName} {raw : PkgName → Option (List PkgName)}
    {e : PkgName × List PkgName} (he : e ∈ buildDependencyMap ep raw) :
    e.1 ∈ ep ∧ e.1.isEmpty = false ∧
      ∃ rs, raw e.1 = some rs ∧ e.2 = processDeps e.1 rs ∧
        (processDeps e.1 rs).isEmpty = false := by
  unfold buildDependencyMap at he
  rw [List.mem_filterMap] at he
  obtain ⟨pkg, hmem, hf⟩ := he
  by_cases hemp : pkg.isEmpty = true
  · rw [if_pos hemp] at hf; cases hf
  · rw [if_neg hemp] at hf
    cases hraw : raw pkg with
    | none => rw [hraw, Option.none_bind] at hf; cases hf
    | some rs =>
      rw [hraw, Option.some_bind] at hf
      by_cases hds : (processDeps pkg rs).isEmpty = true
      · rw [if_pos hds] at hf; cases hf
      · rw [if_neg hds] at hf
        cases hf
        exact ⟨hmem, Bool.eq_false_iff.mpr hemp, rs, hraw, rfl, Bool.eq_false_iff.mpr hds⟩

theorem buildDependencyMap_keys_sublist (ep : List PkgName)
    (raw : PkgName → Option (List PkgName)) :
    ((buildDependencyMap ep raw).map Prod.fst).Sublist ep := by
  unfold buildDependencyMap
  apply filterMap_keys_sublist
  intro a y hy
  by_cases hemp : a.isEmpty = true
  · rw [if_pos hemp] at hy; cases hy
  · rw [if_neg hemp] at hy
    cases hraw : raw a with
    | none => rw [hraw, Option.none_bind] at hy; cases hy
    | some rs =>
      rw [hraw, Option.some_bind] at hy
      by_cases hds : (processDeps a rs).isEmpty = true
      · rw [if_pos hds] at hy; cases hy
      · rw [if_neg hds] at hy
        cases hy
        rfl

theorem buildDependencyMap_congr {ep : List PkgName}
    {raw1 raw2 : PkgName → Option (List PkgName)}
    (h : ∀ p ∈ ep, p.isEmpty = false → raw1 p = raw2 p) :
    buildDependencyMap ep raw1 = buildDependencyMap ep raw2 := by
  unfold buildDependencyMap
  apply filterMap_congr_fun
  intro p hp
  by_cases hemp : p.isEmpty = true
  · rw [if_pos hemp, if_pos hemp]
  · rw [if_neg hemp, if_neg hemp, h p hp (Bool.eq_false_iff.mpr hemp)]

theorem lookupN_buildDependencyMap {ep : List PkgName}
    {raw : PkgName → Option (List PkgName)} {p : PkgName} {rs : List PkgName}
    (hnd : ep.Nodup) (hp : p ∈ ep) (hraw : raw p = some rs) (hne : p.isEmpty = false) :
    lookupN p (buildDependencyMap ep raw) =
      (if (processDeps p rs).isEmpty = true then none else some (processDeps p rs)) := by
  by_cases hds : (processDeps p rs).isEmpty = true
  · rw [if_pos hds]
    apply lookupN_none_of_keys
    intro e he hq
    obtain ⟨-, -, rs', hrs', -, hne'⟩ := buildDependencyMap_mem he
    rw [hq, hraw] at hrs'
    cases hrs'
    rw [hq] at hne'
    rw [hds] at hne'
    cases hne'
  · rw [if_neg hds]
    apply mem_lookupN ((buildDependencyMap_keys_sublist ep raw).nodup hnd)
    unfold buildDependencyMap
    rw [List.mem_filterMap]
    refine ⟨p, hp, ?_⟩
    rw [if_neg (by rw [hne]; exact Bool.false_ne_true), hraw, Option.some_bind, if_neg hds]

theorem lookupN_buildDependencyMap_none {ep : List PkgName}
    {raw : PkgName → Option (List PkgName)} {q : PkgName} (hq : raw q = none) :
    lookupN q (buildDependencyMap ep raw) = none := by
  apply lookupN_none_of_keys
  intro e he hq1
  obtain ⟨-, -, rs, hrs, -⟩ := buildDependencyMap_mem he
  rw [hq1, hq] at hrs
  cases hrs

theorem buildDependencyMap_failure_filter (ep : List PkgName)
    (raw : PkgName → Option (List PkgName)) (q : PkgName) :
    buildDependencyMap ep (fun p => if p = q then none else raw p) =
      buildDependencyMap (ep.filter (fun p => decide (p ≠ q))) raw := by
  induction ep with
  | nil => rfl
  | cons a t ih =>
    simp only [buildDependencyMap, List.filterMap_cons, List.filter_cons] at ih ⊢
    by_cases haq : a = q
    · subst haq
      rw [if_pos (rfl : a = a), Option.none_bind]
      rw [if_neg (show ¬decide (a ≠ a) = true from by simp)]
      by_cases hemp : a.isEmpty = true
      · rw [if_pos hemp]
        exact ih
      · rw [if_neg hemp]
        exact ih
    · rw [if_neg haq]
      rw [if_pos (decide_eq_true haq)]
      rw [List.filterMap_cons]
      rw [ih]

/-! ### Case lemmas for `categorize` -/

theorem toLower_toLower (c : Char) : c.toLower.toLower = c.toLower := by
  simp only [Char.toLower]
  by_cases h : c.toNat ≥ 65 ∧ c.toNat ≤ 90
  · rw [if_pos h]
    obtain ⟨h1, h2⟩ := h
    generalize c.toNat = n at h1 h2 ⊢
    interval_cases n <;> decide
  · rw [if_neg h, if_neg h]

theorem lowerName_idem (s : PkgName) : lowerName (lowerName s) = lowerName s := by
  unfold lowerName
  rw [List.map_map]
  exact List.map_congr_left (fun a _ => toLower_toLower a)

theorem containsSub_of_isPrefixOf {needle hay : PkgName}
    (h : needle.isPrefixOf hay = true) : containsSub hay needle = true := by
  cases hay with
  | nil =>
    cases needle with
    | nil => rfl
    | cons a t => simp at h
  | cons a t =>
    simp only [containsSub]
    rw [h]
    rfl

theorem python_prefix_contains {pkg : PkgName} (h : kwPythonDash.isPrefixOf pkg = true) :
    containsSub (lowerName pkg) kwPython = true := by
  rw [ List.isPrefixOf_iff_prefix] at h
  obtain ⟨rest, hrest⟩ := h
  subst hrest
  apply containsSub_of_isPrefixOf
  rw [ List.isPrefixOf_iff_prefix]
  have e1 : lowerName (kwPythonDash ++ rest) = kwPythonDash ++ lowerName rest := by
    unfold lowerName
    rw [List.map_append]
    have hfix : List.map Char.toLower kwPythonDash = kwPythonDash := by decide
    rw [hfix]
  rw [e1]
  have e2 : kwPythonDash = kwPython ++ ['-'] := by decide
  rw [e2, List.append_assoc]
  exact List.prefix_append kwPython _

/-- C1: `categorize` assigns exactly one `Category` to every package name
(`OTHER` is the final catch-all branch), and the ordered rule table is
first-match-wins: every name satisfying rule 1 (the python rule) classifies
as `PYTHON` no matter which later rules it also matches; in particular
`"python-kde-tools"` matches rule 1 and the `kde` rule 8 and classifies as
`PYTHON`. -/
theorem categorize_total_first_match :
    (∀ pkg : PkgName, ∃! c : Category, categorize pkg = c) ∧
    (∀ pkg : PkgName,
      (containsSub (lowerName pkg) kwPython || kwPythonDash.isPrefixOf pkg) = true →
      categorize pkg = Category.PYTHON) ∧
    (containsSub (lowerName (("python-kde-tools").data)) kwPython = true ∧
     containsSub (lowerName (("python-kde-tools").data)) kwKde = true ∧
     categorize (("python-kde-tools").data) = Category.PYTHON) := by
  refine ⟨fun pkg => ⟨categorize pkg, rfl, fun c h => h.symm⟩, fun pkg h => ?_, by decide⟩
  unfold categorize
  rw [if_pos h]

/-- Witness for C1 at the concrete name `"python-kde-tools"`. -/
theorem categorize_total_first_match_wit :
    categorize (("python-kde-tools").data) = Category.PYTHON :=
  categorize_total_first_match.2.1 (("python-kde-tools").data) (by decide)

/-- C4 counterexample: `categorize` is not case-insensitive as claimed — the
exact-name `DEVELOPMENT_TOOLS` rule is case-sensitive, so `"Git"` maps to
`OTHER` while its lowercase form `"git"` maps to `DEVELOPMENT_TOOLS`. -/
theorem categorize_not_case_insensitive :
    categorize (("Git").data) ≠ categorize (lowerName (("Git").data)) ∧
    lowerName (("Git").data) = ("git").data ∧
    categorize (("Git").data) = Category.OTHER ∧
    categorize (("git").data) = Category.DEVELOPMENT_TOOLS := by decide

/-- C4 amended: `categorize` is case-insensitive for every package name
whose lowercase form is not one of the six exact `DEVELOPMENT_TOOLS` names
(the substring and prefix rules match regardless of case; only the
exact-name rule is case-sensitive). -/
theorem categorize_lower_eq (pkg : PkgName) (h : lowerName pkg ∉ devToolsNames) :
    categorize pkg = categorize (lowerName pkg) := by
  unfold categorize
  rw [lowerName_idem]
  by_cases h1 : containsSub (lowerName pkg) kwPython = true
  · rw [h1]
    simp only [Bool.true_or]
    rfl
  · have heq : containsSub (lowerName pkg) kwPython = false := Bool.eq_false_iff.mpr h1
    have hp1 : kwPythonDash.isPrefixOf pkg = false := by
      cases hcase : kwPythonDash.isPrefixOf pkg
      · rfl
      · exact absurd (python_prefix_contains hcase) h1
    have hp2 : kwPythonDash.isPrefixOf (lowerName pkg) = false := by
      cases hcase : kwPythonDash.isPrefixOf (lowerName pkg)
      · rfl
      · have hc := python_prefix_contains hcase
        rw [lowerName_idem] at hc
        exact absurd hc h1
    have h3a : pkg ∉ devToolsNames := by
      intro hm
      have hall : ∀ d ∈ devToolsNames, lowerName d = d := by decide
      rw [hall pkg hm] at h
      exact h hm
    rw [heq, hp1, hp2]
    rw [if_neg h3a, if_neg h]

/-- Witness for the amended C4 at the concrete name `"PyThOn-Kde"`. -/
theorem categorize_lower_eq_wit :
    categorize (("PyThOn-Kde").data) = categorize (lowerName (("PyThOn-Kde").data)) :=
  categorize_lower_eq (("PyThOn-Kde").data) (by decide)

/-- C9: with an empty explicit-package set the dependency map is empty and
the report has no category section, whatever the collaborator answers. -/
theorem emptyExplicit_empty_report (raw : PkgName → Option (List PkgName)) :
    buildDependencyMap [] raw = [] ∧ buildReport (buildDependencyMap [] raw) [] = [] :=
  ⟨rfl, rfl⟩

/-- C8: when the reverse-dependency lookup fails for a single package `q`
(the collaborator answers `none` at `q`), `q` gets no entry in the
dependency map and the map equals the one built with `q` removed from the
explicit list; the failure never aborts the aggregation. -/
theorem lookupFailure_absorbed (ep : List PkgName)
    (raw : PkgName → Option (List PkgName)) (q : PkgName) :
    buildDependencyMap ep (fun p => if p = q then none else raw p) =
      buildDependencyMap (ep.filter (fun p => decide (p ≠ q))) raw ∧
    lookupN q (buildDependencyMap ep (fun p => if p = q then none else raw p)) = none :=
  ⟨buildDependencyMap_failure_filter ep raw q,
   lookupN_buildDependencyMap_none (by simp)⟩

/-- C3 counterexample: for the empty package name (which the explicit set
can contain), the loop skips the package before any lookup, so the map has
no entry even though the processed depender list would be non-empty. -/
theorem emptyName_entry_counterexample :
    buildDependencyMap [([] : PkgName)] rawEmptyTest = [] ∧
    processDeps [] [("x").data] = [("x").data] := by decide

/-- C3 amended: for every non-empty package `p` of the (duplicate-free)
explicit set whose lookup succeeded with raw depender lines `rs`, the map's
entry for `p` is exactly `processDeps p rs` — the lines stripped of
whitespace, with empty strings and entries equal to `p` removed and
duplicates preserved — and when that list is empty the map has no entry for
`p` at all. -/
theorem buildDependencyMap_entry (ep : List PkgName)
    (raw : PkgName → Option (List PkgName)) (p : PkgName) (rs : List PkgName)
    (hnd : ep.Nodup) (hp : p ∈ ep) (hraw : raw p = some rs) (hne : p.isEmpty = false) :
    lookupN p (buildDependencyMap ep raw) =
      (if (processDeps p rs).isEmpty = true then none else some (processDeps p rs)) :=
  lookupN_buildDependencyMap hnd hp hraw hne

/-- Witness for the amended C3: strip, self-removal and duplicate
preservation on a concrete entry. -/
theorem buildDependencyMap_entry_wit :
    lookupN (("a").data) (buildDependencyMap [("a").data] rawDupTest) =
      (if (processDeps (("a").data)
            [(" b ").data, ("b").data, ("a").data, ("").data]).isEmpty = true then none
       else some (processDeps (("a").data)
            [(" b ").data, ("b").data, ("a").data, ("").data])) :=
  buildDependencyMap_entry [("a").data] rawDupTest (("a").data)
    [(" b ").data, ("b").data, ("a").data, ("").data]
    (by decide) (by decide) (by decide) (by decide)

/-- C10: every key of the built dependency map is a non-empty member of the
explicit set, and empty names are skipped before any lookup: the map does
not depend on the collaborator's answer at the empty name. -/
theorem buildDependencyMap_keys (ep : List PkgName)
    (raw : PkgName → Option (List PkgName)) :
    (∀ e ∈ buildDependencyMap ep raw, e.1.isEmpty = false ∧ e.1 ∈ ep) ∧
    (∀ v : Option (List PkgName),
      buildDependencyMap ep raw =
        buildDependencyMap ep (fun p => if p = ([] : PkgName) then v else raw p)) := by
  constructor
  · intro e he
    obtain ⟨hmem, hemp, -⟩ := buildDependencyMap_mem he
    exact ⟨hemp, hmem⟩
  · intro v
    apply buildDependencyMap_congr
    intro p hp hne
    cases p with
    | nil => cases hne
    | cons a t => rw [if_neg (List.cons_ne_nil a t)]

/-- Witness for C10 on the concrete scenario map. -/
theorem buildDependencyMap_keys_wit :
    (("python").data,
      [("inkscape").data, ("libreoffice-fresh").data, ("some-other-tool").data]).1.isEmpty
        = false ∧
    (("python").data,
      [("inkscape").data, ("libreoffice-fresh").data, ("some-other-tool").data]).1 ∈ epEx1 :=
  (buildDependencyMap_keys epEx1 rawEx1).1 _ (by decide)

/-! ### Lemmas about the grouping and emission stages -/

theorem isEmpty_true_iff {α : Type} {l : List α} : l.isEmpty = true ↔ l = [] := by
  cases l <;> simp

theorem isEmpty_false_iff {α : Type} {l : List α} : l.isEmpty = false ↔ l ≠ [] := by
  cases l <;> simp

theorem categoriesMap_mem {dm : DepMap} {ep : List PkgName}
    {t : Category × PkgName × List PkgName} (ht : t ∈ categoriesMap dm ep) :
    ∃ ds, (t.2.1, ds) ∈ dm ∧ t.2.2 = explicitDependers ep ds ∧
      t.2.2 ≠ [] ∧ t.1 = categorize t.2.1 := by
  unfold categoriesMap at ht
  rw [List.mem_filterMap] at ht
  obtain ⟨e, he, hf⟩ := ht
  by_cases hemp : (explicitDependers ep e.2).isEmpty = true
  · rw [if_pos hemp] at hf; cases hf
  · rw [if_neg hemp] at hf
    cases hf
    exact ⟨e.2, he, rfl, fun hnil => hemp (isEmpty_true_iff.mpr hnil), rfl⟩

theorem categoriesMap_intro {dm : DepMap} {ep : List PkgName} {dep : PkgName}
    {ds : List PkgName} (h : (dep, ds) ∈ dm) (hne : explicitDependers ep ds ≠ []) :
    (categorize dep, dep, explicitDependers ep ds) ∈ categoriesMap dm ep := by
  unfold categoriesMap
  rw [List.mem_filterMap]
  refine ⟨(dep, ds), h, ?_⟩
  rw [if_neg (fun hemp => hne (isEmpty_true_iff.mp hemp))]

theorem catDeps_mem_iff {cm : List (Category × PkgName × List PkgName)} {c : Category}
    {e : PkgName × List PkgName} : e ∈ catDeps cm c ↔ (c, e) ∈ cm := by
  unfold catDeps
  rw [List.mem_map]
  constructor
  · rintro ⟨t, htm, hte⟩
    rw [List.mem_filter] at htm
    obtain ⟨htcm, htc⟩ := htm
    have hc : t.1 = c := of_decide_eq_true htc
    rw [← hc, ← hte]
    exact htcm
  · intro hce
    refine ⟨(c, e), ?_, rfl⟩
    rw [List.mem_filter]
    exact ⟨hce, decide_eq_true rfl⟩

theorem categoriesMap_keys_sublist (dm : DepMap) (ep : List PkgName) :
    ((categoriesMap dm ep).map (fun t => t.2.1)).Sublist (dm.map Prod.fst) := by
  unfold categoriesMap
  induction dm with
  | nil => simp
  | cons e t ih =>
    rw [List.filterMap_cons, List.map_cons]
    by_cases hemp : (explicitDependers ep e.2).isEmpty = true
    · rw [if_pos hemp]
      exact ih.cons e.1
    · rw [if_neg hemp, List.map_cons]
      exact ih.cons₂ e.1

theorem catDeps_keys_sublist (cm : List (Category × PkgName × List PkgName)) (c : Category) :
    ((catDeps cm c).map Prod.fst).Sublist (cm.map (fun t => t.2.1)) := by
  unfold catDeps
  rw [List.map_map]
  exact (List.filter_sublist cm).map (fun t => t.2.1)

theorem catDeps_keys_nodup {dm : DepMap} {ep : List PkgName}
    (hnd : (dm.map Prod.fst).Nodup) (c : Category) :
    ((catDeps (categoriesMap dm ep) c).map Prod.fst).Nodup :=
  ((catDeps_keys_sublist _ c).trans (categoriesMap_keys_sublist dm ep)).nodup hnd

theorem catDeps_values {dm : DepMap} {ep : List PkgName} {c : Category}
    {e : PkgName × List PkgName} (he : e ∈ catDeps (categoriesMap dm ep) c) :
    (∀ x ∈ e.2, x ∈ ep) ∧ e.2 ≠ [] := by
  obtain ⟨ds, hds, hval, hne, hcat⟩ := categoriesMap_mem (catDeps_mem_iff.mp he)
  refine ⟨?_, hne⟩
  intro x hx
  rw [hval] at hx
  unfold explicitDependers at hx
  rw [List.mem_filter] at hx
  exact of_decide_eq_true hx.2

theorem emitCat_mem {entries : DepMap} {ep : List PkgName} {dep : PkgName}
    {ds : List PkgName} (h : (dep, ds) ∈ emitCat entries ep) :
    ∃ v, (dep, v) ∈ entries ∧ ds = explicitDependers ep (dedupSort v) ∧ ds ≠ [] := by
  unfold emitCat at h
  rw [List.mem_filterMap] at h
  obtain ⟨d, hd, hf⟩ := h
  cases hl : lookupN d entries with
  | none => rw [hl, Option.none_bind] at hf; cases hf
  | some v =>
    rw [hl, Option.some_bind] at hf
    by_cases hemp : (explicitDependers ep (dedupSort v)).isEmpty = true
    · rw [if_pos hemp] at hf; cases hf
    · rw [if_neg hemp] at hf
      injection hf with h2
      rw [Prod.mk.injEq] at h2
      obtain ⟨h21, h22⟩ := h2
      subst h21
      subst h22
      exact ⟨v, lookupN_mem hl, rfl,
        fun hnil => hemp (by rw [hnil]; rfl)⟩

theorem emitCat_intro {entries : DepMap} {ep : List PkgName} {dep : PkgName}
    {v : List PkgName} (hnd : (entries.map Prod.fst).Nodup) (hv : (dep, v) ∈ entries)
    (hne : explicitDependers ep (dedupSort v) ≠ []) :
    (dep, explicitDependers ep (dedupSort v)) ∈ emitCat entries ep := by
  unfold emitCat
  rw [List.mem_filterMap]
  refine ⟨dep, ?_, ?_⟩
  · exact mem_sortNames.mpr (List.mem_map_of_mem Prod.fst hv)
  · rw [mem_lookupN hnd hv, Option.some_bind,
      if_neg (fun hemp => hne (isEmpty_true_iff.mp hemp))]

theorem emitCat_ne_nil {entries : DepMap} {ep : List PkgName}
    (hne : entries ≠ [])
    (hval : ∀ e ∈ entries, (∀ x ∈ e.2, x ∈ ep) ∧ e.2 ≠ []) :
    emitCat entries ep ≠ [] := by
  obtain ⟨e, he⟩ := List.exists_mem_of_ne_nil entries hne
  have hkey : e.1 ∈ sortNames (entries.map Prod.fst) :=
    mem_sortNames.mpr (List.mem_map_of_mem Prod.fst he)
  obtain ⟨v, hlv, hmemv⟩ := lookupN_some_of_key_mem (List.mem_map_of_mem Prod.fst he)
  obtain ⟨hsub, hvne⟩ := hval (e.1, v) hmemv
  obtain ⟨x, hx⟩ := List.exists_mem_of_ne_nil v hvne
  have hx2 : x ∈ explicitDependers ep (dedupSort v) := by
    unfold explicitDependers
    rw [List.mem_filter]
    exact ⟨mem_dedupSort.mpr hx, decide_eq_true (hsub x hx)⟩
  intro hnil
  unfold emitCat at hnil
  rw [List.filterMap_eq_nil_iff] at hnil
  have hcontr := hnil e.1 hkey
  rw [hlv, Option.some_bind,
    if_neg (fun hemp => (List.ne_nil_of_mem hx2) (isEmpty_true_iff.mp hemp))] at hcontr
  cases hcontr

theorem catOrder_complete (c : Category) : c ∈ catOrder := by
  cases c <;> decide

theorem buildReport_mem {dm : DepMap} {ep : List PkgName} {c : Category} {es : DepMap}
    (h : (c, es) ∈ buildReport dm ep) :
    catDeps (categoriesMap dm ep) c ≠ [] ∧
      es = emitCat (catDeps (categoriesMap dm ep) c) ep := by
  unfold buildReport at h
  rw [List.mem_filterMap] at h
  obtain ⟨c', hc', hf⟩ := h
  by_cases hemp : (catDeps (categoriesMap dm ep) c').isEmpty = true
  · rw [if_pos hemp] at hf; cases hf
  · rw [if_neg hemp] at hf
    injection hf with h2
    rw [Prod.mk.injEq] at h2
    obtain ⟨h21, h22⟩ := h2
    subst h21
    exact ⟨fun hnil => hemp (by rw [hnil]; rfl), h22.symm⟩

theorem buildReport_intro {dm : DepMap} {ep : List PkgName} {c : Category}
    (hne : catDeps (categoriesMap dm ep) c ≠ []) :
    (c, emitCat (catDeps (categoriesMap dm ep) c) ep) ∈ buildReport dm ep := by
  unfold buildReport
  rw [List.mem_filterMap]
  refine ⟨c, catOrder_complete c, ?_⟩
  rw [if_neg (fun hemp => hne (isEmpty_true_iff.mp hemp))]

/-! ### The double-filtering refinement, determinism, and report claims -/

theorem emitCat_eq_single {entries : DepMap} {ep : List PkgName}
    (h : ∀ e ∈ entries, ∀ x ∈ e.2, x ∈ ep) :
    emitCat entries ep = emitCatSingleFilter entries := by
  unfold emitCat emitCatSingleFilter
  apply filterMap_congr_fun
  intro dep hdep
  cases hl : lookupN dep entries with
  | none => rw [Option.none_bind, Option.none_bind]
  | some v =>
    rw [Option.some_bind, Option.some_bind]
    have hv : (dep, v) ∈ entries := lookupN_mem hl
    have heq : explicitDependers ep (dedupSort v) = dedupSort v := by
      unfold explicitDependers
      rw [List.filter_eq_self]
      exact fun x hx => decide_eq_true (h _ hv x (mem_dedupSort.mp hx))
    rw [heq]

/-- C5: the explicit-package filtering applied at map-grouping time and
again at line-emission time is redundant: for all inputs the report equals
the variant that filters only once, i.e. the second per-line filter over the
already-filtered dependers never removes an element. -/
theorem double_filter_redundant (dm : DepMap) (ep : List PkgName) :
    buildReport dm ep = buildReportSingleFilter dm ep := by
  unfold buildReport buildReportSingleFilter
  apply filterMap_congr_fun
  intro c hc
  by_cases hemp : (catDeps (categoriesMap dm ep) c).isEmpty = true
  · rw [if_pos hemp, if_pos hemp]
  · rw [if_neg hemp, if_neg hemp,
      emitCat_eq_single (fun e he => (catDeps_values he).1)]

/-- C7: `buildReport` is deterministic: it depends on the explicit-package
set only through membership, so two runs over the same dependency map and
the same set (under any list representation of it) produce the identical
report, with identical category, dependency and depender ordering. -/
theorem buildReport_deterministic (dm : DepMap) (ep1 ep2 : List PkgName)
    (h : ∀ x : PkgName, x ∈ ep1 ↔ x ∈ ep2) :
    buildReport dm ep1 = buildReport dm ep2 := by
  have hed : ∀ ds, explicitDependers ep1 ds = explicitDependers ep2 ds := by
    intro ds
    unfold explicitDependers
    apply List.filter_congr
    intro x hx
    exact decide_eq_decide.mpr (h x)
  have hcm : categoriesMap dm ep1 = categoriesMap dm ep2 := by
    unfold categoriesMap
    apply filterMap_congr_fun
    intro e he
    rw [hed]
  have hec : ∀ entries, emitCat entries ep1 = emitCat entries ep2 := by
    intro entries
    unfold emitCat
    apply filterMap_congr_fun
    intro dep hdep
    cases hl : lookupN dep entries with
    | none => rw [Option.none_bind, Option.none_bind]
    | some v => rw [Option.some_bind, Option.some_bind, hed]
  unfold buildReport
  apply filterMap_congr_fun
  intro c hc
  rw [hcm, hec]

/-- Witness for C7: the scenario set and a different list representation of
the same set give the identical report. -/
theorem buildReport_deterministic_wit :
    buildReport (buildDependencyMap epEx1 rawEx1) epEx1 =
      buildReport (buildDependencyMap epEx1 rawEx1) (epEx1 ++ epEx1) :=
  buildReport_deterministic (buildDependencyMap epEx1 rawEx1) epEx1 (epEx1 ++ epEx1)
    (fun x => by simp [List.mem_append])

/-- C2: over the whole pipeline with a duplicate-free explicit set, a
dependency appears in the final categorized report iff it is itself an
explicit package and at least one of its recorded dependers is explicit;
a dependency whose filtered depender list is empty is dropped entirely. -/
theorem report_appearance_iff (ep : List PkgName)
    (raw : PkgName → Option (List PkgName)) (dep : PkgName) (hnd : ep.Nodup) :
    (∃ ce ∈ buildReport (buildDependencyMap ep raw) ep, ∃ ds, (dep, ds) ∈ ce.2) ↔
      (dep ∈ ep ∧
        ∃ d ∈ (lookupN dep (buildDependencyMap ep raw)).getD [], d ∈ ep) := by
  have hkeys : ((buildDependencyMap ep raw).map Prod.fst).Nodup :=
    (buildDependencyMap_keys_sublist ep raw).nodup hnd
  constructor
  · rintro ⟨⟨c, es⟩, hce, ds, hds⟩
    obtain ⟨hne, hes⟩ := buildReport_mem hce
    rw [hes] at hds
    obtain ⟨v, hv, hval, hdsne⟩ := emitCat_mem hds
    obtain ⟨ds0, hds0, hv0, hv0ne, hcat⟩ := categoriesMap_mem (catDeps_mem_iff.mp hv)
    have hdep_ep : dep ∈ ep := (buildDependencyMap_mem hds0).1
    have hlk : lookupN dep (buildDependencyMap ep raw) = some ds0 :=
      mem_lookupN hkeys hds0
    refine ⟨hdep_ep, ?_⟩
    rw [hlk, Option.getD_some]
    obtain ⟨d, hd⟩ := List.exists_mem_of_ne_nil _ hv0ne
    rw [hv0] at hd
    unfold explicitDependers at hd
    rw [List.mem_filter] at hd
    exact ⟨d, hd.1, of_decide_eq_true hd.2⟩
  · rintro ⟨hdep, d, hd, hdep2⟩
    cases hlk : lookupN dep (buildDependencyMap ep raw) with
    | none =>
      rw [hlk, Option.getD_none] at hd
      cases hd
    | some ds0 =>
      rw [hlk, Option.getD_some] at hd
      have hmemdm : (dep, ds0) ∈ buildDependencyMap ep raw := lookupN_mem hlk
      have hd_ed : d ∈ explicitDependers ep ds0 := by
        unfold explicitDependers
        rw [List.mem_filter]
        exact ⟨hd, decide_eq_true hdep2⟩
      have hedne : explicitDependers ep ds0 ≠ [] := List.ne_nil_of_mem hd_ed
      have hcd : (dep, explicitDependers ep ds0) ∈
          catDeps (categoriesMap (buildDependencyMap ep raw) ep) (categorize dep) :=
        catDeps_mem_iff.mpr (categoriesMap_intro hmemdm hedne)
      have hcdne :
          catDeps (categoriesMap (buildDependencyMap ep raw) ep) (categorize dep) ≠ [] :=
        List.ne_nil_of_mem hcd
      have hednd := @catDeps_keys_nodup (buildDependencyMap ep raw) ep hkeys (categorize dep)
      have hedne2 :
          explicitDependers ep (dedupSort (explicitDependers ep ds0)) ≠ [] := by
        apply List.ne_nil_of_mem (a := d)
        unfold explicitDependers
        rw [List.mem_filter]
        refine ⟨mem_dedupSort.mpr ?_, decide_eq_true hdep2⟩
        rw [List.mem_filter]
        exact ⟨hd, decide_eq_true hdep2⟩
      exact ⟨(categorize dep,
          emitCat (catDeps (categoriesMap (buildDependencyMap ep raw) ep) (categorize dep)) ep),
        buildReport_intro hcdne,
        explicitDependers ep (dedupSort (explicitDependers ep ds0)),
        emitCat_intro hednd hcd hedne2⟩

/-- Witness for C2 on the scenario input: `"python"` appears in the report. -/
theorem report_appearance_iff_wit :
    ∃ ce ∈ buildReport (buildDependencyMap epEx1 rawEx1) epEx1,
      ∃ ds, ((("python").data), ds) ∈ ce.2 :=
  (report_appearance_iff epEx1 rawEx1 (("python").data) (by decide)).mpr (by decide)

/-- C6: report shape — the retained dependers of every emitted dependency
are deduplicated and sorted, dependencies inside a category section are
sorted, the sections appear as a subsequence of the fixed `cat_order`
priority list (not alphabetically), and a category with no retained
dependencies never produces a section. -/
theorem report_ordering (dm : DepMap) (ep : List PkgName) :
    ((buildReport dm ep).map Prod.fst).Sublist catOrder ∧
    (∀ ce ∈ buildReport dm ep,
      ce.2 ≠ [] ∧ List.Sorted LeN (ce.2.map Prod.fst) ∧
      ∀ e ∈ ce.2, List.Sorted LeN e.2 ∧ e.2.Nodup) ∧
    (∀ c : Category, catDeps (categoriesMap dm ep) c = [] →
      ∀ es, (c, es) ∉ buildReport dm ep) := by
  refine ⟨?_, ?_, ?_⟩
  · unfold buildReport
    apply filterMap_keys_sublist
    intro c y hy
    by_cases hemp : (catDeps (categoriesMap dm ep) c).isEmpty = true
    · rw [if_pos hemp] at hy; cases hy
    · rw [if_neg hemp] at hy
      cases hy
      rfl
  · rintro ⟨c, es⟩ hce
    obtain ⟨hne, hes⟩ := buildReport_mem hce
    subst hes
    refine ⟨emitCat_ne_nil hne (fun e he => catDeps_values he), ?_, ?_⟩
    · have hsub : ((emitCat (catDeps (categoriesMap dm ep) c) ep).map Prod.fst).Sublist
          (sortNames ((catDeps (categoriesMap dm ep) c).map Prod.fst)) := by
        unfold emitCat
        apply filterMap_keys_sublist
        intro dep y hy
        cases hl : lookupN dep (catDeps (categoriesMap dm ep) c) with
        | none => rw [hl, Option.none_bind] at hy; cases hy
        | some v =>
          rw [hl, Option.some_bind] at hy
          by_cases hemp : (explicitDependers ep (dedupSort v)).isEmpty = true
          · rw [if_pos hemp] at hy; cases hy
          · rw [if_neg hemp] at hy
            cases hy
            rfl
      exact List.Pairwise.sublist hsub (sortNames_sorted _)
    · rintro ⟨dep, ds⟩ he
      obtain ⟨v, hv, hval, hdsne⟩ := emitCat_mem he
      subst hval
      constructor
      · exact List.Pairwise.sublist (List.filter_sublist _) (dedupSort_sorted v)
      · exact (List.filter_sublist _).nodup (dedupSort_nodup v)
  · intro c hc es hmem
    exact (buildReport_mem hmem).1 hc

/-- Witness for C6 on the scenario report's `PYTHON` section. -/
theorem report_ordering_wit :
    ([((("python").data), [("inkscape").data, ("libreoffice-fresh").data])] : DepMap) ≠ [] ∧
    List.Sorted LeN
      (([((("python").data), [("inkscape").data, ("libreoffice-fresh").data])] : DepMap).map
        Prod.fst) ∧
    ∀ e ∈ ([((("python").data), [("inkscape").data, ("libreoffice-fresh").data])] : DepMap),
      List.Sorted LeN e.2 ∧ e.2.Nodup :=
  (report_ordering (buildDependencyMap epEx1 rawEx1) epEx1).2.1
    (Category.PYTHON, [((("python").data), [("inkscape").data, ("libreoffice-fresh").data])])
    (by decide)
